import Mathlib

/-!
A verification development for the LDB console command layer
(`src/command.c` and the shell driver).  The C functions are shallowly
embedded: strings become lists of C `char` values (`List Int` for the
normalizer, `List Nat` byte values for hex material), and each console
command becomes a function producing the ordered list of externally
visible events (lock/unlock, config reads, prints, calls into the
storage engine).  Library routines that live outside `src/` (for
example `ldb_collate_cmp`, `uint16_write`, `ldb_hex_to_bin`) are
modelled from the specification, as marked in their doc comments.
-/

namespace LdbProof

/-! ## Definitions

### ldb_command_normalize (src/command.c:52-74)

The C loop scans `text` once, copying every character strictly greater
than `' '` and emitting a single `' '` for a run of characters `≤ ' '`
provided the output is nonempty and does not already end in a space;
finally one trailing space, if present, is removed.  The accumulator
below is the `tmp` buffer in reverse order, so the buffer's last
character is the accumulator's head.  Characters are C `char` values
(`Int`), exactly as the comparisons in the source read them. -/

/-- Embedding of one iteration of the copy loop of `ldb_command_normalize`
(src/command.c:58-68); `acc` is the `tmp` buffer reversed. -/
def norm_step (acc : List Int) (c : Int) : List Int :=
  if 32 < c then c :: acc
  else
    match acc with
    | [] => []
    | a :: r => if a = 32 then a :: r else 32 :: a :: r

/-- Embedding of the right-trim step of `ldb_command_normalize`
(src/command.c:71), acting on the reversed buffer. -/
def rtrim_rev : List Int → List Int
  | [] => []
  | a :: r => if a = 32 then r else a :: r

/-- Embedding of `ldb_command_normalize` (src/command.c:52-74). -/
def ldb_command_normalize (text : List Int) : List Int :=
  (rtrim_rev (text.foldl norm_step [])).reverse

/-- Direct (non-accumulator) rendering of the same state machine: the
Boolean records whether the last emitted character is a word character,
i.e. whether a pending whitespace run must produce a separating space. -/
def norm_rec : Bool → List Int → List Int
  | _, [] => []
  | inWord, c :: rest =>
      if 32 < c then c :: norm_rec true rest
      else if inWord then 32 :: norm_rec false rest
      else norm_rec false rest

/-- The machine state carried by a reversed buffer: the buffer ends in a
word character iff it is nonempty with a non-space last character. -/
def accInWord : List Int → Bool
  | [] => false
  | a :: _ => if a = 32 then false else true

/-- Maximal runs of characters greater than `' '`; `cur` is the
(reversed) run currently being read. -/
def wordsAux (cur : List Int) : List Int → List (List Int)
  | [] => if cur = [] then [] else [cur.reverse]
  | c :: rest =>
      if 32 < c then wordsAux (c :: cur) rest
      else if cur = [] then wordsAux [] rest
      else cur.reverse :: wordsAux [] rest

/-- The maximal runs of characters greater than `' '` in a string. -/
def spec_words (t : List Int) : List (List Int) := wordsAux [] t

/-- Join word runs with a single space between consecutive runs. -/
def joinSp : List (List Int) → List Int
  | [] => []
  | [w] => w
  | w :: ws => w ++ 32 :: joinSp ws

/-- The specification's normal form: maximal runs of characters `≤ ' '`
collapse to one interior space each, with no leading or trailing space. -/
def spec_normalize (t : List Int) : List Int := joinSp (spec_words t)

/-- The trailing-space marker produced by a whitespace run at the very
end of the input (before the final right trim). -/
def endPad (t : List Int) : List Int :=
  match t.getLast? with
  | some c => if 32 < c then [] else [32]
  | none => []

/-! ### The command layer (src/command.c)

Each console command is embedded as a function from its already-parsed
arguments (the work of the library's `ldb_extract_word`) and the table
configuration that `ldb_read_cfg` would return, to the ordered list of
externally visible events the command performs.  Only the
`ldb_valid_table(dbtable) == true` branch is modelled, since every claim
speaks about commands on a valid table.  Hex strings are lists of byte
values. -/

/-- Modelled from the spec: the library constant `LDB_KEY_LN`; a short
key is exactly 4 bytes (32 bits). -/
def LDB_KEY_LN : Nat := 4

/-- The fields of `struct ldb_table` the command layer reads or writes:
key length, fixed record length (0 = variable), and the temporary flag. -/
structure LdbTable where
  key_ln : Nat
  rec_ln : Nat
  tmp : Bool
deriving DecidableEq

/-- The character test of `valid_hex_ln` (src/command.c:148-156):
`h < '0' || (h > '9' && h < 'a') || h > 'f'` rejects the character. -/
def is_hex_digit (h : Nat) : Bool :=
  if h < 48 ∨ (57 < h ∧ h < 97) ∨ 102 < h then false else true

/-- Embedding of `valid_hex_ln` (src/command.c:148-156): checks that the
`ln` characters starting at position `p` are hex digits.  Reading past
the end of the string meets the terminating NUL, which is not a hex
digit, exactly as the default value 0 here. -/
def valid_hex_ln (str : List Nat) (p ln : Nat) : Bool :=
  (List.range ln).all fun i => is_hex_digit (str.getD (p + i) 0)

/-- Modelled from the spec: the value of one hex digit, as used by the
library routine `ldb_hex_to_bin` (not under src/); non-digits map to 0,
a value the proofs below never depend on. -/
def hexVal (h : Nat) : Nat :=
  if 48 ≤ h ∧ h ≤ 57 then h - 48
  else if 97 ≤ h ∧ h ≤ 102 then h - 87
  else 0

/-- Modelled from the spec: `ldb_hex_to_bin` (library code, not under
src/) decodes `nbytes` bytes from the hex characters starting at
position `p`. -/
def ldb_hex_to_bin (str : List Nat) (p nbytes : Nat) : List Nat :=
  (List.range nbytes).map fun j =>
    16 * hexVal (str.getD (p + 2 * j) 0) + hexVal (str.getD (p + 2 * j + 1) 0)

/-- The first-byte guard inside `fetch_keys` (src/command.c:185-189):
a newly decoded key must share its first byte with the first key.  When
no key has been stored yet the C code compares `keyblob[0]` with
itself. -/
def firstByteOk (acc : List (List Nat)) (k : List Nat) : Bool :=
  match acc with
  | [] => true
  | k0 :: _ => k0.getD 0 0 == k.getD 0 0

/-- The scanning loop of `fetch_keys` (src/command.c:173-201).  `p` is
the offset of the cursor `key` inside the string; the accumulator holds
the keys decoded so far (the C code stores them consecutively in
`keyblob` and counts bytes in `*size`; an error resets `*size` to 0,
here the empty list).  Each loop iteration advances `p` by at least one
when `key_ln ≥ 1`, so `keys.length` rounds of fuel reproduce the C loop
exactly; for `key_ln = 0` the C loop would not terminate at all (never
reached: a valid table has `key_ln ≥ 4`). -/
def fetch_keys_loop (keys : List Nat) (key_ln : Nat) :
    Nat → Nat → List (List Nat) → List (List Nat)
  | 0, _, acc => acc
  | fuel + 1, p, acc =>
      if p < keys.length then
        let c := keys.getD p 0
        if c = 32 ∨ c = 44 then fetch_keys_loop keys key_ln fuel (p + 1) acc
        else if valid_hex_ln keys p key_ln then
          let k := ldb_hex_to_bin keys p key_ln
          if firstByteOk acc k then
            fetch_keys_loop keys key_ln fuel (p + key_ln * 2) (acc ++ [k])
          else []
        else []
      else acc

/-- Embedding of `fetch_keys` (src/command.c:166-204): decode a comma or
space separated key list, demanding a common first byte; any failure
yields the empty result (`*size = 0`). -/
def fetch_keys (keys : List Nat) (key_ln : Nat) : List (List Nat) :=
  fetch_keys_loop keys key_ln keys.length 0 []

/-- Modelled from the spec: `ldb_collate_cmp` (library code, not under
src/) is the full-key byte comparator, i.e. lexicographic comparison of
the `key_ln`-byte keys, as `qsort` consumes it. -/
def leKey : List Nat → List Nat → Bool
  | [], _ => true
  | _ :: _, [] => false
  | a :: as, b :: bs => if a < b then true else if b < a then false else leKey as bs

/-- The ordering relation induced by `leKey`. -/
def keyLe (x y : List Nat) : Prop := leKey x y = true

instance : DecidableRel keyLe := fun x y => by unfold keyLe; infer_instance

instance : IsTotal (List Nat) keyLe := by
  constructor
  intro a
  induction a with
  | nil => intro b; left; rfl
  | cons x xs ih =>
      intro b
      cases b with
      | nil => right; rfl
      | cons y ys =>
          by_cases h1 : x < y
          · left; simp [keyLe, leKey, h1]
          · by_cases h2 : y < x
            · right; simp [keyLe, leKey, h2]
            · have hxy : x = y := by omega
              subst hxy
              rcases ih ys with h | h
              · left
                simp only [keyLe, leKey, if_neg h1]
                exact h
              · right
                simp only [keyLe, leKey, if_neg h1]
                exact h

instance : IsTrans (List Nat) keyLe := by
  constructor
  intro a
  induction a with
  | nil => intro b c _ _; exact rfl
  | cons x xs ih =>
      intro b c hab hbc
      cases b with
      | nil => simp [keyLe, leKey] at hab
      | cons y ys =>
          cases c with
          | nil => simp [keyLe, leKey] at hbc
          | cons z zs =>
              by_cases hxy : x < y
              · by_cases hyz : y < z
                · have hxz : x < z := by omega
                  simp [keyLe, leKey, hxz]
                · by_cases hzy : z < y
                  · simp [keyLe, leKey, hyz, hzy] at hbc
                  · have hyzeq : y = z := by omega
                    subst hyzeq
                    simp [keyLe, leKey, hxy]
              · by_cases hyx : y < x
                · simp [keyLe, leKey, hxy, hyx] at hab
                · have hxyeq : x = y := by omega
                  subst hxyeq
                  by_cases hyz : x < z
                  · simp [keyLe, leKey, hyz]
                  · by_cases hzy : z < x
                    · simp [keyLe, leKey, hyz, hzy] at hbc
                    · have hxzeq : x = z := by omega
                      subst hxzeq
                      simp only [keyLe, leKey, if_neg hyz] at hab hbc ⊢
                      exact ih ys zs hab hbc

/-- Modelled from the spec: `uint16_write` (library code, not under
src/) stores a value in a fixed 2-byte encoding; the concrete byte order
is immaterial as long as writers and readers agree. -/
def uint16_write (v : Nat) : List Nat := [v / 256 % 256, v % 256]

/-- The distinct console messages printed by the embedded commands. -/
inductive Msg
  | E076_keys (n : Nat)
  | E076_fixed (n : Nat)
  | E076_max
  | E076_mergeKeyLen
  | E076_mergeRecTypes
  | E071_keyLen
  | E073_selKeyLen
  | E075_unlinkKeyLen
  | removing (n : Nat)
deriving DecidableEq

/-- The two insert flavours, `INSERT_HEX` and `INSERT_ASCII`. -/
inductive InsertType
  | hexT
  | asciiT
deriving DecidableEq

/-- The select output formats `HEX`, `ASCII`, `CSV`. -/
inductive SelectFormat
  | hexF
  | asciiF
  | csvF
deriving DecidableEq

/-- Externally visible events of a command, in program order. -/
inductive Event
  | lock
  | unlock
  | readCfg
  | print (m : Msg)
  | collate (src dst : LdbTable) (max : Int) (erase : Bool) (keys : List (List Nat))
  | openSector
  | closeSector
  | nodeWrite (key bytes : List Nat) (ln : Nat)
  | fetchRecordset (key : List Nat) (shortMatch : Bool) (fmt : SelectFormat)
  | listUnlink (key : List Nat)
deriving DecidableEq

/-- Embedding of `ldb_command_delete` (src/command.c:211-254) on a valid
table: lock, read the configuration twice, decode the key list, run the
three checks in source order, and on success sort the keys (the C code
uses `qsort` with `ldb_collate_cmp`) and call `ldb_collate` with a
temporary destination and `erase = false`. -/
def ldb_command_delete (tbl : LdbTable) (keysStr : List Nat) (max : Int) : List Event :=
  let tmptable : LdbTable := { tbl with tmp := true, key_ln := LDB_KEY_LN }
  let ks := fetch_keys keysStr tbl.key_ln
  let keys_ln := tbl.key_ln * ks.length
  [Event.lock, Event.readCfg, Event.readCfg] ++
    (if keys_ln < tbl.key_ln then [Event.print (Msg.E076_keys tbl.key_ln)]
     else if tbl.rec_ln ≠ 0 ∧ (tbl.rec_ln : Int) ≠ max then
       [Event.print (Msg.E076_fixed tbl.rec_ln)]
     else if max < (tbl.key_ln : Int) then [Event.print Msg.E076_max]
     else [Event.print (Msg.removing ks.length),
           Event.collate tbl tmptable max false (List.insertionSort keyLe ks)]) ++
    [Event.unlock]

/-- Embedding of `ldb_command_collate` (src/command.c:261-293) on a
valid table. -/
def ldb_command_collate (tbl : LdbTable) (max : Int) : List Event :=
  let tmptable : LdbTable := { tbl with tmp := true, key_ln := LDB_KEY_LN }
  [Event.lock, Event.readCfg, Event.readCfg] ++
    (if tbl.rec_ln ≠ 0 ∧ (tbl.rec_ln : Int) ≠ max then
       [Event.print (Msg.E076_fixed tbl.rec_ln)]
     else if max < (tbl.key_ln : Int) then [Event.print Msg.E076_max]
     else [Event.collate tbl tmptable max false []]) ++
    [Event.unlock]

/-- Embedding of `ldb_command_merge` (src/command.c:334-374) on a valid
source table: the two max-length checks run first, then the two
compatibility checks, and on success `ldb_collate` runs with
`erase = true` into the destination table. -/
def ldb_command_merge (tbl out : LdbTable) (max : Int) : List Event :=
  [Event.lock, Event.readCfg, Event.readCfg] ++
    (if tbl.rec_ln ≠ 0 ∧ (tbl.rec_ln : Int) ≠ max then
       [Event.print (Msg.E076_fixed tbl.rec_ln)]
     else if max < (tbl.key_ln : Int) then [Event.print Msg.E076_max]
     else if tbl.key_ln ≠ out.key_ln then [Event.print Msg.E076_mergeKeyLen]
     else if tbl.rec_ln ≠ out.rec_ln then [Event.print Msg.E076_mergeRecTypes]
     else [Event.collate tbl { out with tmp := false, key_ln := LDB_KEY_LN } max true []]) ++
    [Event.unlock]

/-- Embedding of `ldb_command_unlink_list` (src/command.c:387-420) on a
valid table: no lock is taken; an 8-hex-character key is required. -/
def ldb_command_unlink_list (_tbl : LdbTable) (key : List Nat) : List Event :=
  if key.length ≠ 8 then [Event.print Msg.E075_unlinkKeyLen]
  else
    [Event.readCfg, Event.openSector,
     Event.listUnlink (ldb_hex_to_bin key 0 (key.length / 2)),
     Event.closeSector]

/-- Embedding of `ldb_command_insert` (src/command.c:428-483) on a valid
table: no lock is taken; the only key check is `strlen(key) < 8`.  The
4-byte header is assembled inside the `data` buffer
(`memmove(data+4, data, dataln)` followed by the two `uint16_write`
calls with the `(uint16_t)` truncations of the source), but for
`INSERT_HEX` the buffer actually passed to `ldb_node_write` is
`databin`, which holds only `strlen(key)` decoded hex characters of the
payload and whose remaining `malloc` bytes are modelled as zeros. -/
def ldb_command_insert (_tbl : LdbTable) (key data : List Nat) (ty : InsertType) :
    List Event :=
  if key.length < 8 then [Event.print Msg.E071_keyLen]
  else
    let keybin := ldb_hex_to_bin key 0 (key.length / 2)
    let dataln := match ty with
      | InsertType.hexT => data.length / 2
      | InsertType.asciiT => data.length
    let databin := ldb_hex_to_bin data 0 (key.length / 2)
    let header := uint16_write ((dataln % 65536 + 2) % 65536) ++
      uint16_write (dataln % 65536)
    let written := match ty with
      | InsertType.hexT => (databin ++ List.replicate (dataln + 4) 0).take (dataln + 4)
      | InsertType.asciiT => header ++ data
    [Event.readCfg, Event.openSector,
     Event.nodeWrite keybin written (dataln + 4), Event.closeSector]

/-- Embedding of `ldb_command_select` (src/command.c:521-585) on a valid
table: keys shorter than 8 hex characters fail the E071 gate before the
configuration is read; then the decoded length must equal the table key
length or `LDB_KEY_LN`, and the fetch runs with the short-match flag
`key_ln == 4`. -/
def ldb_command_select (tbl : LdbTable) (key : List Nat) (fmt : SelectFormat) :
    List Event :=
  if key.length < 8 then [Event.print Msg.E071_keyLen]
  else
    let keybin := ldb_hex_to_bin key 0 (key.length / 2)
    let key_ln := key.length / 2
    [Event.readCfg] ++
      (if key_ln ≠ tbl.key_ln ∧ key_ln ≠ LDB_KEY_LN then
         [Event.print Msg.E073_selKeyLen]
       else [Event.fetchRecordset keybin (decide (key_ln = 4)) fmt])

/-! ### Trace observations used by the claims -/

/-- Event is a call to `ldb_collate`. -/
def isCollateEv : Event → Bool
  | Event.collate _ _ _ _ _ => true
  | _ => false

/-- The trace calls `ldb_collate`. -/
def hasCollate (tr : List Event) : Bool := tr.any isCollateEv

/-- Event is one of the two length-mismatch E076 messages. -/
def isLenErrEv : Event → Bool
  | Event.print (Msg.E076_fixed _) => true
  | Event.print Msg.E076_max => true
  | _ => false

/-- The trace prints a length-mismatch E076 message. -/
def hasLenErr (tr : List Event) : Bool := tr.any isLenErrEv

/-- Event is one of the two incompatible-tables E076 messages. -/
def isIncompatEv : Event → Bool
  | Event.print Msg.E076_mergeKeyLen => true
  | Event.print Msg.E076_mergeRecTypes => true
  | _ => false

/-- The trace prints an incompatible-tables E076 message. -/
def hasIncompatErr (tr : List Event) : Bool := tr.any isIncompatEv

/-- Event is the lock acquisition. -/
def isLockEv : Event → Bool
  | Event.lock => true
  | _ => false

/-- The trace acquires the table lock. -/
def hasLock (tr : List Event) : Bool := tr.any isLockEv

/-- Event is a record write through `ldb_node_write`. -/
def isNodeWriteEv : Event → Bool
  | Event.nodeWrite _ _ _ => true
  | _ => false

/-- The trace writes a record. -/
def hasNodeWrite (tr : List Event) : Bool := tr.any isNodeWriteEv

/-- Event is a call to `ldb_fetch_recordset`. -/
def isFetchEv : Event → Bool
  | Event.fetchRecordset _ _ _ => true
  | _ => false

/-- The trace fetches records. -/
def hasFetch (tr : List Event) : Bool := tr.any isFetchEv

/-- The argument vector of one `ldb_collate` call. -/
structure CollateCall where
  src : LdbTable
  dst : LdbTable
  maxLen : Int
  erase : Bool
  keys : List (List Nat)
deriving DecidableEq

/-- Arguments of a collate event, if any. -/
def collArgs : Event → Option CollateCall
  | Event.collate s d m e k => some ⟨s, d, m, e, k⟩
  | _ => none

/-- Arguments of the first `ldb_collate` call in the trace. -/
def firstCollate (tr : List Event) : Option CollateCall :=
  tr.findSome? collArgs

/-- The argument vector of one `ldb_fetch_recordset` call. -/
structure FetchCall where
  key : List Nat
  shortMatch : Bool
  fmt : SelectFormat
deriving DecidableEq

/-- Arguments of a fetch event, if any. -/
def fetchArgs : Event → Option FetchCall
  | Event.fetchRecordset k b f => some ⟨k, b, f⟩
  | _ => none

/-- Arguments of the first `ldb_fetch_recordset` call in the trace. -/
def firstFetch (tr : List Event) : Option FetchCall :=
  tr.findSome? fetchArgs

/-- The argument vector of one `ldb_node_write` call. -/
structure NodeWriteCall where
  key : List Nat
  bytes : List Nat
  ln : Nat
deriving DecidableEq

/-- Arguments of a node-write event, if any. -/
def nodeWriteArgs : Event → Option NodeWriteCall
  | Event.nodeWrite k w n => some ⟨k, w, n⟩
  | _ => none

/-- Arguments of the first `ldb_node_write` call in the trace. -/
def firstNodeWrite (tr : List Event) : Option NodeWriteCall :=
  tr.findSome? nodeWriteArgs

/-! ### Claim-side description of a valid delete key list (claim C2) -/

/-- Split a byte string at commas (claim-side helper). -/
def splitCommas : List Nat → List (List Nat)
  | [] => [[]]
  | c :: rest =>
      if c = 44 then [] :: splitCommas rest
      else
        match splitCommas rest with
        | t :: ts => (c :: t) :: ts
        | [] => [[c]]

/-- First decoded byte of a hex token (claim-side helper). -/
def tokFirstByte (t : List Nat) : Nat :=
  16 * hexVal (t.getD 0 0) + hexVal (t.getD 1 0)

/-- The claim's acceptance condition for a delete key list: every
comma-separated token is a valid hex encoding of exactly `key_ln` bytes
and all tokens share the same first byte. -/
def claimValidKeyList (s : List Nat) (key_ln : Nat) : Bool :=
  let toks := splitCommas s
  (toks.all fun t => (t.length == 2 * key_ln) && t.all is_hex_digit) &&
    match toks with
    | [] => true
    | t :: ts => ts.all fun u => tokFirstByte u == tokFirstByte t

/-! ## Theorems

### Correctness of the normalizer (claim C10) -/

theorem foldl_norm_step (t : List Int) :
    ∀ acc : List Int,
      t.foldl norm_step acc = (norm_rec (accInWord acc) t).reverse ++ acc := by
  induction t with
  | nil => intro acc; simp [norm_rec]
  | cons c rest ih =>
      intro acc
      rw [List.foldl_cons, ih (norm_step acc c)]
      by_cases h : 32 < c
      · have hc : accInWord (c :: acc) = true := by
          have : ¬ c = 32 := by omega
          simp [accInWord, this]
        simp [norm_step, h, norm_rec, hc]
      · cases acc with
        | nil => simp [norm_step, h, norm_rec, accInWord]
        | cons a r =>
            by_cases ha : a = 32
            · simp [norm_step, h, ha, norm_rec, accInWord]
            · simp [norm_step, h, ha, norm_rec, accInWord]

theorem normalize_eq_rec (t : List Int) :
    ldb_command_normalize t = (rtrim_rev (norm_rec false t).reverse).reverse := by
  unfold ldb_command_normalize
  rw [foldl_norm_step t []]
  simp [accInWord]

theorem joinSp_cons_cons (w w2 : List Int) (ws : List (List Int)) :
    joinSp (w :: w2 :: ws) = w ++ 32 :: joinSp (w2 :: ws) := rfl

theorem wordsAux_ne_nil (t : List Int) :
    ∀ cur : List Int, cur ≠ [] → wordsAux cur t ≠ [] := by
  induction t with
  | nil => intro cur h; simp [wordsAux, h]
  | cons c rest ih =>
      intro cur h
      by_cases hc : 32 < c
      · simpa [wordsAux, hc] using ih (c :: cur) (by simp)
      · simp [wordsAux, hc, h]

theorem wordsAux_nil_eq_nil (t : List Int) :
    wordsAux [] t = [] ↔ ∀ c ∈ t, ¬ 32 < c := by
  induction t with
  | nil => simp [wordsAux]
  | cons c rest ih =>
      by_cases hc : 32 < c
      · constructor
        · intro h
          exact absurd h (by simpa [wordsAux, hc] using wordsAux_ne_nil rest [c] (by simp))
        · intro h
          exact absurd hc (h c (by simp))
      · rw [show wordsAux [] (c :: rest) = wordsAux [] rest by simp [wordsAux, hc], ih]
        constructor
        · intro h d hd
          rcases List.mem_cons.mp hd with h1 | h1
          · subst h1; exact hc
          · exact h d h1
        · intro h d hd
          exact h d (List.mem_cons_of_mem c hd)

theorem wordsAux_good (t : List Int) :
    ∀ cur : List Int, (∀ x ∈ cur, 32 < x) →
      ∀ w ∈ wordsAux cur t, w ≠ [] ∧ ∀ x ∈ w, 32 < x := by
  induction t with
  | nil =>
      intro cur hcur w hw
      by_cases h : cur = []
      · simp [wordsAux, h] at hw
      · simp [wordsAux, h] at hw
        subst hw
        constructor
        · simpa using h
        · intro x hx
          exact hcur x (by simpa using hx)
  | cons c rest ih =>
      intro cur hcur w hw
      by_cases hc : 32 < c
      · refine ih (c :: cur) ?_ w (by simpa [wordsAux, hc] using hw)
        intro x hx
        rcases List.mem_cons.mp hx with h | h
        · omega
        · exact hcur x h
      · by_cases hn : cur = []
        · exact ih [] (by simp) w (by simpa [wordsAux, hc, hn] using hw)
        · rw [wordsAux, if_neg hc, if_neg hn] at hw
          rcases List.mem_cons.mp hw with h | h
          · subst h
            refine ⟨by simpa using hn, ?_⟩
            intro x hx
            exact hcur x (by simpa using hx)
          · exact ih [] (by simp) w h

theorem endPad_cons (c : Int) (rest : List Int) (h : rest ≠ []) :
    endPad (c :: rest) = endPad rest := by
  cases rest with
  | nil => exact absurd rfl h
  | cons b l => simp [endPad, List.getLast?_cons_cons]

theorem endPad_eval (t : List Int) : endPad t = [] ∨ endPad t = [32] := by
  unfold endPad
  cases t.getLast? with
  | none => exact Or.inl rfl
  | some c =>
      by_cases h : 32 < c
      · exact Or.inl (by simp [h])
      · exact Or.inr (by simp [h])

theorem norm_rec_characterization (t : List Int) :
    (norm_rec false t =
       joinSp (wordsAux [] t) ++ (if wordsAux [] t = [] then [] else endPad t)) ∧
    (∀ cur : List Int, cur ≠ [] →
       cur.reverse ++ norm_rec true t = joinSp (wordsAux cur t) ++ endPad t) := by
  induction t with
  | nil =>
      constructor
      · simp [norm_rec, wordsAux, joinSp]
      · intro cur h
        simp [norm_rec, wordsAux, h, joinSp, endPad]
  | cons c rest ih =>
      obtain ⟨ih1, ih2⟩ := ih
      have hpadT : ∀ d : Int, 32 < d → endPad (d :: rest) = endPad rest := by
        intro d hd
        cases rest with
        | nil => simp [endPad, hd]
        | cons b l => exact endPad_cons d (b :: l) (by simp)
      constructor
      · by_cases h : 32 < c
        · have hne : wordsAux [] (c :: rest) ≠ [] := by
            simpa [wordsAux, h] using wordsAux_ne_nil rest [c] (by simp)
          rw [if_neg hne]
          have step : norm_rec false (c :: rest) = c :: norm_rec true rest := by
            simp [norm_rec, h]
          rw [step]
          have := ih2 [c] (by simp)
          simp only [List.reverse_singleton, List.singleton_append] at this
          rw [this]
          have hw : wordsAux [] (c :: rest) = wordsAux [c] rest := by
            simp [wordsAux, h]
          rw [hw, hpadT c h]
        · have step : norm_rec false (c :: rest) = norm_rec false rest := by
            simp [norm_rec, h]
          have hw : wordsAux [] (c :: rest) = wordsAux [] rest := by
            simp [wordsAux, h]
          rw [step, ih1, hw]
          by_cases he : wordsAux [] rest = []
          · simp [he]
          · have hrest : rest ≠ [] := by
              intro hr
              exact he (by simp [hr, wordsAux])
            rw [if_neg he, if_neg he, endPad_cons c rest hrest]
      · intro cur hcur
        by_cases h : 32 < c
        · have step : norm_rec true (c :: rest) = c :: norm_rec true rest := by
            simp [norm_rec, h]
          rw [step]
          have assoc : cur.reverse ++ c :: norm_rec true rest =
              (c :: cur).reverse ++ norm_rec true rest := by
            simp
          rw [assoc, ih2 (c :: cur) (by simp)]
          have hw : wordsAux cur (c :: rest) = wordsAux (c :: cur) rest := by
            simp [wordsAux, h]
          rw [hw, hpadT c h]
        · have step : norm_rec true (c :: rest) = 32 :: norm_rec false rest := by
            simp [norm_rec, h]
          have hw : wordsAux cur (c :: rest) = cur.reverse :: wordsAux [] rest := by
            simp [wordsAux, h, hcur]
          rw [step, hw]
          cases hws : wordsAux [] rest with
          | nil =>
              have hrec : norm_rec false rest = [] := by
                rw [ih1, hws]; simp [joinSp]
              have hpad : endPad (c :: rest) = [32] := by
                cases rest with
                | nil => simp [endPad, h]
                | cons b l =>
                    rw [endPad_cons c (b :: l) (by simp)]
                    have hall := (wordsAux_nil_eq_nil (b :: l)).mp hws
                    have hmem : (b :: l).getLast (by simp) ∈ b :: l :=
                      List.getLast_mem _
                    have hlast : ¬ 32 < (b :: l).getLast (by simp) :=
                      hall _ hmem
                    unfold endPad
                    rw [List.getLast?_eq_getLast (b :: l) (by simp)]
                    simp [hlast]
              rw [hrec, hpad]
              simp [joinSp]
          | cons w ws =>
              have hrest : rest ≠ [] := by
                intro hr
                rw [hr] at hws
                simp [wordsAux] at hws
              have hrec : norm_rec false rest = joinSp (w :: ws) ++ endPad rest := by
                rw [ih1, hws]; simp
              rw [hrec, joinSp_cons_cons, endPad_cons c rest hrest]
              simp

theorem joinSp_getLast (W : List (List Int)) (hW : W ≠ [])
    (hgood : ∀ w ∈ W, w ≠ [] ∧ ∀ x ∈ w, 32 < x) :
    ∃ x, (joinSp W).getLast? = some x ∧ 32 < x := by
  induction W with
  | nil => exact absurd rfl hW
  | cons w ws ih =>
      cases ws with
      | nil =>
          obtain ⟨hne, hall⟩ := hgood w (by simp)
          refine ⟨w.getLast hne, ?_, hall _ (List.getLast_mem hne)⟩
          simp [joinSp, List.getLast?_eq_getLast w hne]
      | cons w2 ws2 =>
          obtain ⟨x, hx, hxgt⟩ := ih (by simp) (by
            intro u hu
            exact hgood u (List.mem_cons_of_mem w hu))
          refine ⟨x, ?_, hxgt⟩
          rw [joinSp_cons_cons]
          rw [List.getLast?_append_cons w 32 (joinSp (w2 :: ws2))]
          have hjne : joinSp (w2 :: ws2) ≠ [] := by
            intro hmt
            rw [hmt] at hx
            simp at hx
          cases hj : joinSp (w2 :: ws2) with
          | nil => exact absurd hj hjne
          | cons y l =>
              rw [hj] at hx
              rw [List.getLast?_cons_cons]
              exact hx

theorem normalize_eq_spec (t : List Int) :
    ldb_command_normalize t = spec_normalize t := by
  rw [normalize_eq_rec]
  obtain ⟨h1, -⟩ := norm_rec_characterization t
  by_cases hw : wordsAux [] t = []
  · rw [h1, hw]
    simp [joinSp, rtrim_rev, spec_normalize, spec_words, hw]
  · rw [h1, if_neg hw]
    obtain ⟨x, hx, hxgt⟩ :=
      joinSp_getLast (wordsAux [] t) hw (wordsAux_good t [] (by simp))
    rcases endPad_eval t with hp | hp
    · rw [hp, List.append_nil]
      cases hj : (joinSp (wordsAux [] t)).reverse with
      | nil =>
          have hempty : joinSp (wordsAux [] t) = [] := by
            have := congrArg List.reverse hj
            simpa using this
          rw [hempty] at hx
          simp at hx
      | cons y l =>
          have hy : y = x := by
            have : (joinSp (wordsAux [] t)).reverse.head? = some x := by
              rw [List.head?_reverse]; exact hx
            rw [hj] at this
            simpa using this
          have hyne : ¬ y = 32 := by omega
          rw [show rtrim_rev (y :: l) = y :: l by simp [rtrim_rev, hyne], ← hj]
          simp [spec_normalize, spec_words]
    · rw [hp]
      have hrev : (joinSp (wordsAux [] t) ++ [32]).reverse =
          32 :: (joinSp (wordsAux [] t)).reverse := by simp
      rw [hrev, show rtrim_rev (32 :: (joinSp (wordsAux [] t)).reverse) =
          (joinSp (wordsAux [] t)).reverse by simp [rtrim_rev]]
      simp [spec_normalize, spec_words]

theorem wordsAux_append_word (w : List Int) :
    ∀ (t cur : List Int), (∀ x ∈ w, 32 < x) →
      wordsAux cur (w ++ t) = wordsAux (w.reverse ++ cur) t := by
  induction w with
  | nil => intro t cur _; simp
  | cons c w' ih =>
      intro t cur hall
      have hc : 32 < c := hall c (by simp)
      have : wordsAux cur (c :: (w' ++ t)) = wordsAux (c :: cur) (w' ++ t) := by
        simp [wordsAux, hc]
      rw [List.cons_append, this, ih t (c :: cur) (fun x hx => hall x (by simp [hx]))]
      simp

theorem spec_words_joinSp (W : List (List Int))
    (hgood : ∀ w ∈ W, w ≠ [] ∧ ∀ x ∈ w, 32 < x) :
    spec_words (joinSp W) = W := by
  induction W with
  | nil => simp [joinSp, spec_words, wordsAux]
  | cons w ws ih =>
      obtain ⟨hne, hall⟩ := hgood w (by simp)
      cases ws with
      | nil =>
          have : joinSp [w] = w ++ [] := by simp [joinSp]
          rw [spec_words, this, wordsAux_append_word w [] [] hall]
          simp [wordsAux, hne]
      | cons w2 ws2 =>
          rw [spec_words, joinSp_cons_cons,
              wordsAux_append_word w (32 :: joinSp (w2 :: ws2)) [] hall]
          have h32 : ¬ (32 : Int) < 32 := by omega
          have hrne : w.reverse ++ [] ≠ [] := by simpa using hne
          rw [wordsAux, if_neg h32, if_neg hrne]
          have ihr := ih (fun u hu => hgood u (List.mem_cons_of_mem w hu))
          rw [spec_words] at ihr
          rw [ihr]
          simp

/-- C10: `ldb_command_normalize` replaces each maximal run of characters
with value at most `' '` by a single interior space, drops leading and
trailing whitespace, preserves all characters greater than `' '` in
order (this is exactly `spec_normalize`), and is idempotent. -/
theorem C10_normalize_correct (t : List Int) :
    ldb_command_normalize t = spec_normalize t ∧
      ldb_command_normalize (ldb_command_normalize t) = ldb_command_normalize t := by
  refine ⟨normalize_eq_spec t, ?_⟩
  rw [normalize_eq_spec t, normalize_eq_spec (spec_normalize t)]
  unfold spec_normalize
  rw [spec_words_joinSp (spec_words t) (wordsAux_good t [] (by simp))]

/-! ### Claim C1: the length checks gating ldb_collate -/

/-- C1 (counterexample): the claim as stated fails for delete.  On a
valid variable-length table with key length 4, a delete command whose
key list is empty and whose max record length 0 is smaller than the key
length prints the invalid-keys E076 message, not a length-mismatch
error, because the key-list check runs first. -/
theorem C1_counterexample :
    (0 : Int) < ((⟨4, 0, false⟩ : LdbTable).key_ln : Int) ∧
      hasLenErr (ldb_command_delete ⟨4, 0, false⟩ [] 0) = false ∧
      hasCollate (ldb_command_delete ⟨4, 0, false⟩ [] 0) = false := by
  decide

/-- C1 (amended): for collate and merge, failing either length check
prints a length-mismatch E076 error and `ldb_collate` is not invoked;
for delete the same holds provided the decoded key list passes its
validity check, which runs first; in all three commands `ldb_collate`
is invoked only when both length checks pass. -/
theorem C1_amended (tbl out : LdbTable) (max : Int) (ks : List Nat) :
    (((tbl.rec_ln ≠ 0 ∧ (tbl.rec_ln : Int) ≠ max) ∨ max < (tbl.key_ln : Int)) →
        hasLenErr (ldb_command_collate tbl max) = true ∧
          hasCollate (ldb_command_collate tbl max) = false) ∧
    (hasCollate (ldb_command_collate tbl max) = true →
        ¬ ((tbl.rec_ln ≠ 0 ∧ (tbl.rec_ln : Int) ≠ max) ∨ max < (tbl.key_ln : Int))) ∧
    (((tbl.rec_ln ≠ 0 ∧ (tbl.rec_ln : Int) ≠ max) ∨ max < (tbl.key_ln : Int)) →
        hasLenErr (ldb_command_merge tbl out max) = true ∧
          hasCollate (ldb_command_merge tbl out max) = false) ∧
    (hasCollate (ldb_command_merge tbl out max) = true →
        ¬ ((tbl.rec_ln ≠ 0 ∧ (tbl.rec_ln : Int) ≠ max) ∨ max < (tbl.key_ln : Int))) ∧
    (tbl.key_ln ≤ tbl.key_ln * (fetch_keys ks tbl.key_ln).length →
      ((tbl.rec_ln ≠ 0 ∧ (tbl.rec_ln : Int) ≠ max) ∨ max < (tbl.key_ln : Int)) →
        hasLenErr (ldb_command_delete tbl ks max) = true ∧
          hasCollate (ldb_command_delete tbl ks max) = false) ∧
    (hasCollate (ldb_command_delete tbl ks max) = true →
        ¬ ((tbl.rec_ln ≠ 0 ∧ (tbl.rec_ln : Int) ≠ max) ∨ max < (tbl.key_ln : Int))) := by
  refine ⟨?_, ?_, ?_, ?_, ?_, ?_⟩
  · intro hbad
    by_cases h1 : tbl.rec_ln ≠ 0 ∧ (tbl.rec_ln : Int) ≠ max
    · constructor <;>
        simp [ldb_command_collate, hasLenErr, hasCollate, isLenErrEv, isCollateEv, h1]
    · have h2 : max < (tbl.key_ln : Int) := by tauto
      constructor <;>
        simp [ldb_command_collate, hasLenErr, hasCollate, isLenErrEv, isCollateEv, h1, h2]
  · intro hc
    by_cases h1 : tbl.rec_ln ≠ 0 ∧ (tbl.rec_ln : Int) ≠ max
    · exfalso
      simp [ldb_command_collate, hasCollate, isCollateEv, h1] at hc
    · by_cases h2 : max < (tbl.key_ln : Int)
      · exfalso
        simp [ldb_command_collate, hasCollate, isCollateEv, h1, h2] at hc
      · tauto
  · intro hbad
    by_cases h1 : tbl.rec_ln ≠ 0 ∧ (tbl.rec_ln : Int) ≠ max
    · constructor <;>
        simp [ldb_command_merge, hasLenErr, hasCollate, isLenErrEv, isCollateEv, h1]
    · have h2 : max < (tbl.key_ln : Int) := by tauto
      constructor <;>
        simp [ldb_command_merge, hasLenErr, hasCollate, isLenErrEv, isCollateEv, h1, h2]
  · intro hc
    by_cases h1 : tbl.rec_ln ≠ 0 ∧ (tbl.rec_ln : Int) ≠ max
    · exfalso
      simp [ldb_command_merge, hasCollate, isCollateEv, h1] at hc
    · by_cases h2 : max < (tbl.key_ln : Int)
      · exfalso
        simp [ldb_command_merge, hasCollate, isCollateEv, h1, h2] at hc
      · tauto
  · intro hkeys hbad
    have h0 : ¬ tbl.key_ln * (fetch_keys ks tbl.key_ln).length < tbl.key_ln := by omega
    by_cases h1 : tbl.rec_ln ≠ 0 ∧ (tbl.rec_ln : Int) ≠ max
    · constructor <;>
        simp [ldb_command_delete, hasLenErr, hasCollate, isLenErrEv, isCollateEv, h0, h1]
    · have h2 : max < (tbl.key_ln : Int) := by tauto
      constructor <;>
        simp [ldb_command_delete, hasLenErr, hasCollate, isLenErrEv, isCollateEv,
          h0, h1, h2]
  · intro hc
    by_cases h0 : tbl.key_ln * (fetch_keys ks tbl.key_ln).length < tbl.key_ln
    · exfalso
      simp [ldb_command_delete, hasCollate, isCollateEv, h0] at hc
    · by_cases h1 : tbl.rec_ln ≠ 0 ∧ (tbl.rec_ln : Int) ≠ max
      · exfalso
        simp [ldb_command_delete, hasCollate, isCollateEv, h0, h1] at hc
      · by_cases h2 : max < (tbl.key_ln : Int)
        · exfalso
          simp [ldb_command_delete, hasCollate, isCollateEv, h0, h1, h2] at hc
        · tauto

/-- C1 (witness): the amended theorem applied to a fixed-record table
with `rec_ln = 5`, `max = 3` and the valid one-key list `aabbccdd`. -/
theorem C1_amended_witness :
    hasLenErr (ldb_command_collate ⟨4, 5, false⟩ 3) = true ∧
      hasLenErr (ldb_command_merge ⟨4, 5, false⟩ ⟨4, 5, false⟩ 3) = true ∧
      hasLenErr (ldb_command_delete ⟨4, 5, false⟩
        [97, 97, 98, 98, 99, 99, 100, 100] 3) = true := by
  refine ⟨((C1_amended ⟨4, 5, false⟩ ⟨4, 5, false⟩ 3
      [97, 97, 98, 98, 99, 99, 100, 100]).1 (by decide)).1, ?_, ?_⟩
  · exact ((C1_amended ⟨4, 5, false⟩ ⟨4, 5, false⟩ 3
      [97, 97, 98, 98, 99, 99, 100, 100]).2.2.1 (by decide)).1
  · exact ((C1_amended ⟨4, 5, false⟩ ⟨4, 5, false⟩ 3
      [97, 97, 98, 98, 99, 99, 100, 100]).2.2.2.2.1 (by decide) (by decide)).1

/-! ### Claim C2: hex validation of the delete key list -/

/-- C2: the code violates the claim.  The key list `aabbccdd,aabbzzzz`
is not a list of valid hex keys in the claim's sense (the second token
contains `z`), yet the delete command accepts it and invokes
`ldb_collate`, because `valid_hex_ln` is called with the byte length
`key_ln` instead of the character length `2 * key_ln`
(src/command.c:180) and therefore checks only the first half of each
key. -/
theorem C2_keys_validation_bug :
    claimValidKeyList
        [97, 97, 98, 98, 99, 99, 100, 100, 44, 97, 97, 98, 98, 122, 122, 122, 122]
        (⟨4, 0, false⟩ : LdbTable).key_ln = false ∧
      hasCollate (ldb_command_delete ⟨4, 0, false⟩
        [97, 97, 98, 98, 99, 99, 100, 100, 44, 97, 97, 98, 98, 122, 122, 122, 122]
        10) = true := by
  decide

/-! ### Claim C3: locking of write-class commands -/

/-- C3 (counterexample): the insert command is a write-class operation
that reads the table configuration and writes a record without ever
acquiring the per-table lock. -/
theorem C3_counterexample :
    hasLock (ldb_command_insert ⟨4, 0, false⟩
        [97, 97, 98, 98, 99, 99, 100, 100] [104, 105] InsertType.asciiT) = false ∧
      Event.readCfg ∈ ldb_command_insert ⟨4, 0, false⟩
        [97, 97, 98, 98, 99, 99, 100, 100] [104, 105] InsertType.asciiT ∧
      hasNodeWrite (ldb_command_insert ⟨4, 0, false⟩
        [97, 97, 98, 98, 99, 99, 100, 100] [104, 105] InsertType.asciiT) = true := by
  decide

theorem getLast_cons_concat {α : Type} (e a : α) (l : List α) :
    (e :: (l ++ [a])).getLast? = some a := by
  rw [show e :: (l ++ [a]) = (e :: l) ++ [a] from rfl, List.getLast?_concat]

/-- C3 (amended): among the write-class commands only delete, collate
and merge acquire the per-table lock; each of them acquires it as its
first action (before reading the table configuration) and releases it
as its last action (after `ldb_collate` has returned and closed its
sector handles); insert and unlink-list never acquire the lock. -/
theorem C3_amended (tbl out : LdbTable) (ks key data : List Nat) (max : Int)
    (ty : InsertType) :
    ((ldb_command_delete tbl ks max).head? = some Event.lock ∧
      (ldb_command_delete tbl ks max).getLast? = some Event.unlock) ∧
    ((ldb_command_collate tbl max).head? = some Event.lock ∧
      (ldb_command_collate tbl max).getLast? = some Event.unlock) ∧
    ((ldb_command_merge tbl out max).head? = some Event.lock ∧
      (ldb_command_merge tbl out max).getLast? = some Event.unlock) ∧
    hasLock (ldb_command_insert tbl key data ty) = false ∧
    hasLock (ldb_command_unlink_list tbl key) = false := by
  refine ⟨⟨?_, ?_⟩, ⟨?_, ?_⟩, ⟨?_, ?_⟩, ?_, ?_⟩
  · simp [ldb_command_delete]
  · simp [ldb_command_delete, getLast_cons_concat]
  · simp [ldb_command_collate]
  · simp [ldb_command_collate, getLast_cons_concat]
  · simp [ldb_command_merge]
  · simp [ldb_command_merge, getLast_cons_concat]
  · cases ty <;> by_cases hk : key.length < 8 <;>
      simp [ldb_command_insert, hasLock, isLockEv, hk]
  · by_cases hk : key.length ≠ 8 <;>
      simp [ldb_command_unlink_list, hasLock, isLockEv, hk]

/-! ### Claim C4: insert key-length validation -/

/-- C4 (counterexample): on a table with key length 16, an insert whose
key decodes to only 4 bytes is accepted and a record is written; the
code compares `strlen(key)` against the constant 8, not against the
table's key length. -/
theorem C4_counterexample :
    ([97, 97, 98, 98, 99, 99, 100, 100] : List Nat).length / 2 <
        (⟨16, 0, false⟩ : LdbTable).key_ln ∧
      hasNodeWrite (ldb_command_insert ⟨16, 0, false⟩
        [97, 97, 98, 98, 99, 99, 100, 100] [104, 105] InsertType.asciiT) = true := by
  decide

/-- C4 (amended): insert rejects a key of fewer than 8 hex characters
(4 decoded bytes, the global `LDB_KEY_LN` minimum) with the E071 error
before any record is written, and accepts every key of at least 8 hex
characters regardless of the table's configured key length. -/
theorem C4_amended (tbl : LdbTable) (key data : List Nat) (ty : InsertType) :
    (key.length < 8 →
        ldb_command_insert tbl key data ty = [Event.print Msg.E071_keyLen] ∧
          hasNodeWrite (ldb_command_insert tbl key data ty) = false) ∧
    (8 ≤ key.length → hasNodeWrite (ldb_command_insert tbl key data ty) = true) := by
  constructor
  · intro h
    constructor
    · simp [ldb_command_insert, h]
    · simp [ldb_command_insert, h, hasNodeWrite, isNodeWriteEv]
  · intro h
    have hk : ¬ key.length < 8 := by omega
    cases ty <;> simp [ldb_command_insert, hk, hasNodeWrite, isNodeWriteEv]

/-- C4 (witness): both branches of the amended theorem at concrete
inputs. -/
theorem C4_amended_witness :
    ldb_command_insert ⟨16, 0, false⟩ [97] [] InsertType.asciiT =
        [Event.print Msg.E071_keyLen] ∧
      hasNodeWrite (ldb_command_insert ⟨16, 0, false⟩
        [97, 97, 98, 98, 99, 99, 100, 100] [] InsertType.asciiT) = true := by
  exact ⟨((C4_amended ⟨16, 0, false⟩ [97] [] InsertType.asciiT).1 (by decide)).1,
    (C4_amended ⟨16, 0, false⟩ [97, 97, 98, 98, 99, 99, 100, 100] []
      InsertType.asciiT).2 (by decide)⟩

/-! ### Claim C5: merge compatibility checks -/

/-- C5 (counterexample): two tables that differ in key length, with a
fixed source record length 5 and max 7, produce the length-mismatch
error rather than an incompatible-tables error, because the max-length
checks run first. -/
theorem C5_counterexample :
    (⟨4, 5, false⟩ : LdbTable).key_ln ≠ (⟨8, 5, false⟩ : LdbTable).key_ln ∧
      hasIncompatErr (ldb_command_merge ⟨4, 5, false⟩ ⟨8, 5, false⟩ 7) = false ∧
      hasCollate (ldb_command_merge ⟨4, 5, false⟩ ⟨8, 5, false⟩ 7) = false := by
  decide

/-- C5 (amended): when the max-length checks pass, tables differing in
key length or record-length configuration make merge report an
incompatible-tables E076 error; tables differing in configuration never
reach `ldb_collate` in any case; and with equal configurations and
passing max-length checks, `ldb_collate` is invoked with the
erase-source flag set to true. -/
theorem C5_amended (tbl out : LdbTable) (max : Int) :
    (¬ (tbl.rec_ln ≠ 0 ∧ (tbl.rec_ln : Int) ≠ max) → ¬ max < (tbl.key_ln : Int) →
      (tbl.key_ln ≠ out.key_ln ∨ tbl.rec_ln ≠ out.rec_ln) →
        hasIncompatErr (ldb_command_merge tbl out max) = true ∧
          hasCollate (ldb_command_merge tbl out max) = false) ∧
    ((tbl.key_ln ≠ out.key_ln ∨ tbl.rec_ln ≠ out.rec_ln) →
        hasCollate (ldb_command_merge tbl out max) = false) ∧
    (¬ (tbl.rec_ln ≠ 0 ∧ (tbl.rec_ln : Int) ≠ max) → ¬ max < (tbl.key_ln : Int) →
      tbl.key_ln = out.key_ln → tbl.rec_ln = out.rec_ln →
        firstCollate (ldb_command_merge tbl out max) =
          some ⟨tbl, { out with tmp := false, key_ln := LDB_KEY_LN }, max, true, []⟩) := by
  refine ⟨?_, ?_, ?_⟩
  · intro h1 h2 hdiff
    by_cases hk : tbl.key_ln = out.key_ln
    · have hr : tbl.rec_ln ≠ out.rec_ln := by tauto
      have h2o : ¬ max < (out.key_ln : Int) := by rw [← hk]; exact h2
      constructor <;>
        simp [ldb_command_merge, hasIncompatErr, hasCollate, isIncompatEv,
          isCollateEv, h1, h2, h2o, hk, hr]
    · constructor <;>
        simp [ldb_command_merge, hasIncompatErr, hasCollate, isIncompatEv,
          isCollateEv, h1, h2, hk]
  · intro hdiff
    by_cases h1 : tbl.rec_ln ≠ 0 ∧ (tbl.rec_ln : Int) ≠ max
    · simp [ldb_command_merge, hasCollate, isCollateEv, h1]
    · by_cases h2 : max < (tbl.key_ln : Int)
      · simp [ldb_command_merge, hasCollate, isCollateEv, h1, h2]
      · by_cases hk : tbl.key_ln = out.key_ln
        · have hr : tbl.rec_ln ≠ out.rec_ln := by tauto
          have h2o : ¬ max < (out.key_ln : Int) := by rw [← hk]; exact h2
          simp [ldb_command_merge, hasCollate, isCollateEv, h1, h2, h2o, hk, hr]
        · simp [ldb_command_merge, hasCollate, isCollateEv, h1, h2, hk]
  · intro h1 h2 hk hr
    have h1o : ¬ (out.rec_ln ≠ 0 ∧ (out.rec_ln : Int) ≠ max) := by rw [← hr]; exact h1
    have h2o : ¬ max < (out.key_ln : Int) := by rw [← hk]; exact h2
    simp [ldb_command_merge, h1, h2, h1o, h2o, hk, hr, firstCollate,
      List.findSome?, collArgs]

/-- C5 (witness): the amended theorem at concrete inputs, covering the
incompatible pair and the successful merge. -/
theorem C5_amended_witness :
    hasIncompatErr (ldb_command_merge ⟨4, 0, false⟩ ⟨8, 0, false⟩ 9) = true ∧
      firstCollate (ldb_command_merge ⟨4, 0, false⟩ ⟨4, 0, false⟩ 9) =
        some ⟨⟨4, 0, false⟩, ⟨4, 0, false⟩, 9, true, []⟩ := by
  refine ⟨((C5_amended ⟨4, 0, false⟩ ⟨8, 0, false⟩ 9).1
      (by decide) (by decide) (by decide)).1, ?_⟩
  exact (C5_amended ⟨4, 0, false⟩ ⟨4, 0, false⟩ 9).2.2
    (by decide) (by decide) (by decide) (by decide)

/-! ### Claim C6: select key-length validation -/

/-- C6 (counterexample): a 6-character key on a table with key length 16
decodes to 3 bytes, which equals neither the table key length nor 4,
yet the command prints E071, not E073, because the `strlen(key) < 8`
gate runs first. -/
theorem C6_counterexample :
    ([97, 97, 98, 98, 99, 99] : List Nat).length / 2 ≠
        (⟨16, 0, false⟩ : LdbTable).key_ln ∧
      ([97, 97, 98, 98, 99, 99] : List Nat).length / 2 ≠ 4 ∧
      Event.print Msg.E073_selKeyLen ∉
        ldb_command_select ⟨16, 0, false⟩ [97, 97, 98, 98, 99, 99] SelectFormat.hexF ∧
      ldb_command_select ⟨16, 0, false⟩ [97, 97, 98, 98, 99, 99] SelectFormat.hexF =
        [Event.print Msg.E071_keyLen] := by
  decide

/-- C6 (amended): select rejects keys of fewer than 8 hex characters
with E071; for longer keys whose decoded length equals neither the
table key length nor 4 it prints E073 and fetches nothing; otherwise
`ldb_fetch_recordset` is invoked. -/
theorem C6_amended (tbl : LdbTable) (key : List Nat) (fmt : SelectFormat) :
    (key.length < 8 →
        ldb_command_select tbl key fmt = [Event.print Msg.E071_keyLen]) ∧
    (8 ≤ key.length → key.length / 2 ≠ tbl.key_ln → key.length / 2 ≠ 4 →
        ldb_command_select tbl key fmt =
            [Event.readCfg, Event.print Msg.E073_selKeyLen] ∧
          hasFetch (ldb_command_select tbl key fmt) = false) ∧
    (8 ≤ key.length → (key.length / 2 = tbl.key_ln ∨ key.length / 2 = 4) →
        hasFetch (ldb_command_select tbl key fmt) = true) := by
  refine ⟨?_, ?_, ?_⟩
  · intro h
    simp [ldb_command_select, h]
  · intro h8 h1 h2
    have hk : ¬ key.length < 8 := by omega
    constructor
    · simp [ldb_command_select, hk, LDB_KEY_LN, h1, h2]
    · simp [ldb_command_select, hk, LDB_KEY_LN, h1, h2, hasFetch, isFetchEv]
  · intro h8 hor
    have hk : ¬ key.length < 8 := by omega
    have hcond : ¬ (key.length / 2 ≠ tbl.key_ln ∧ key.length / 2 ≠ LDB_KEY_LN) := by
      unfold LDB_KEY_LN
      tauto
    simp [ldb_command_select, hk, hcond, hasFetch, isFetchEv]

/-- C6 (witness): both outcomes of the amended theorem at concrete
inputs. -/
theorem C6_amended_witness :
    ldb_command_select ⟨16, 0, false⟩ [97] SelectFormat.hexF =
        [Event.print Msg.E071_keyLen] ∧
      hasFetch (ldb_command_select ⟨16, 0, false⟩
        [97, 97, 98, 98, 99, 99, 100, 100] SelectFormat.hexF) = true := by
  exact ⟨(C6_amended ⟨16, 0, false⟩ [97] SelectFormat.hexF).1 (by decide),
    (C6_amended ⟨16, 0, false⟩ [97, 97, 98, 98, 99, 99, 100, 100]
      SelectFormat.hexF).2.2 (by decide) (by decide)⟩

/-! ### Claim C7: short-match mode selection -/

/-- C7 (counterexample): on a table whose key length is 4, an accepted
full-length key is fetched with the short-match flag set, contradicting
the claim that full-key-length selects use exact-match mode. -/
theorem C7_counterexample :
    ([97, 97, 98, 98, 99, 99, 100, 100] : List Nat).length / 2 =
        (⟨4, 0, false⟩ : LdbTable).key_ln ∧
      firstFetch (ldb_command_select ⟨4, 0, false⟩
          [97, 97, 98, 98, 99, 99, 100, 100] SelectFormat.hexF) =
        some ⟨[170, 187, 204, 221], true, SelectFormat.hexF⟩ := by
  decide

/-- C7 (amended): an accepted select fetches in short-match mode iff
the key decodes to exactly 4 bytes; a key of the table's full key
length is fetched in exact-match mode whenever that length is not 4. -/
theorem C7_amended (tbl : LdbTable) (key : List Nat) (fmt : SelectFormat)
    (f : FetchCall) :
    (firstFetch (ldb_command_select tbl key fmt) = some f →
        (f.shortMatch = true ↔ key.length / 2 = 4)) ∧
    (firstFetch (ldb_command_select tbl key fmt) = some f →
      key.length / 2 = tbl.key_ln → tbl.key_ln ≠ 4 → f.shortMatch = false) := by
  have main : firstFetch (ldb_command_select tbl key fmt) = some f →
      f.shortMatch = decide (key.length / 2 = 4) := by
    intro h
    by_cases hk : key.length < 8
    · simp [ldb_command_select, hk, firstFetch, List.findSome?, fetchArgs] at h
    · by_cases hcond : key.length / 2 ≠ tbl.key_ln ∧ key.length / 2 ≠ LDB_KEY_LN
      · simp [ldb_command_select, hk, hcond, firstFetch, List.findSome?,
          fetchArgs] at h
      · have hval : firstFetch (ldb_command_select tbl key fmt) =
            some ⟨ldb_hex_to_bin key 0 (key.length / 2),
              decide (key.length / 2 = 4), fmt⟩ := by
          simp [ldb_command_select, hk, hcond, firstFetch, List.findSome?, fetchArgs]
        have heq := Option.some.inj (hval.symm.trans h)
        rw [← heq]
  constructor
  · intro h
    rw [main h]
    simp
  · intro h hkey hne
    rw [main h]
    exact decide_eq_false (by omega)

/-- C7 (witness): the amended theorem on a table with key length 8 and
a full-length 8-byte key, fetched in exact-match mode. -/
theorem C7_amended_witness :
    ((⟨[170, 187, 204, 221, 170, 187, 204, 221], false, SelectFormat.hexF⟩ :
          FetchCall).shortMatch = true ↔
        ([97, 97, 98, 98, 99, 99, 100, 100, 97, 97, 98, 98, 99, 99, 100, 100] :
          List Nat).length / 2 = 4) ∧
      (⟨[170, 187, 204, 221, 170, 187, 204, 221], false, SelectFormat.hexF⟩ :
          FetchCall).shortMatch = false := by
  constructor
  · exact (C7_amended ⟨8, 0, false⟩
      [97, 97, 98, 98, 99, 99, 100, 100, 97, 97, 98, 98, 99, 99, 100, 100]
      SelectFormat.hexF
      ⟨[170, 187, 204, 221, 170, 187, 204, 221], false, SelectFormat.hexF⟩).1
      (by decide)
  · exact (C7_amended ⟨8, 0, false⟩
      [97, 97, 98, 98, 99, 99, 100, 100, 97, 97, 98, 98, 99, 99, 100, 100]
      SelectFormat.hexF
      ⟨[170, 187, 204, 221, 170, 187, 204, 221], false, SelectFormat.hexF⟩).2
      (by decide) (by decide) (by decide)

/-! ### Claim C8: arguments of the ldb_collate invocation -/

/-- C8: whenever delete invokes `ldb_collate`, the exclude-key list it
passes is the full-key-comparator sort of the decoded keys (hence
sorted and a permutation of them), the erase-source flag is false, and
the destination table is temporary; whenever collate invokes
`ldb_collate`, the erase-source flag is false, the destination is
temporary, and the exclude list is empty. -/
theorem C8_collate_invocation (tbl : LdbTable) (ks : List Nat) (max : Int)
    (c : CollateCall) :
    (firstCollate (ldb_command_delete tbl ks max) = some c →
        c.erase = false ∧ c.dst.tmp = true ∧
          c.keys = List.insertionSort keyLe (fetch_keys ks tbl.key_ln) ∧
          List.Sorted keyLe c.keys ∧ c.keys.Perm (fetch_keys ks tbl.key_ln)) ∧
    (firstCollate (ldb_command_collate tbl max) = some c →
        c.erase = false ∧ c.dst.tmp = true ∧ c.keys = []) := by
  constructor
  · intro h
    by_cases h0 : tbl.key_ln * (fetch_keys ks tbl.key_ln).length < tbl.key_ln
    · simp [ldb_command_delete, h0, firstCollate, List.findSome?, collArgs] at h
    · by_cases h1 : tbl.rec_ln ≠ 0 ∧ (tbl.rec_ln : Int) ≠ max
      · simp [ldb_command_delete, h0, h1, firstCollate, List.findSome?, collArgs] at h
      · by_cases h2 : max < (tbl.key_ln : Int)
        · simp [ldb_command_delete, h0, h1, h2, firstCollate, List.findSome?,
            collArgs] at h
        · have hval : firstCollate (ldb_command_delete tbl ks max) =
              some ⟨tbl, { tbl with tmp := true, key_ln := LDB_KEY_LN }, max, false,
                List.insertionSort keyLe (fetch_keys ks tbl.key_ln)⟩ := by
            simp [ldb_command_delete, h0, h1, h2, firstCollate, List.findSome?,
              collArgs]
          have heq := Option.some.inj (hval.symm.trans h)
          rw [← heq]
          refine ⟨rfl, rfl, rfl, ?_, ?_⟩
          · exact List.sorted_insertionSort keyLe (fetch_keys ks tbl.key_ln)
          · exact List.perm_insertionSort keyLe (fetch_keys ks tbl.key_ln)
  · intro h
    by_cases h1 : tbl.rec_ln ≠ 0 ∧ (tbl.rec_ln : Int) ≠ max
    · simp [ldb_command_collate, h1, firstCollate, List.findSome?, collArgs] at h
    · by_cases h2 : max < (tbl.key_ln : Int)
      · simp [ldb_command_collate, h1, h2, firstCollate, List.findSome?, collArgs] at h
      · have hval : firstCollate (ldb_command_collate tbl max) =
            some ⟨tbl, { tbl with tmp := true, key_ln := LDB_KEY_LN }, max, false,
              []⟩ := by
          simp [ldb_command_collate, h1, h2, firstCollate, List.findSome?, collArgs]
        have heq := Option.some.inj (hval.symm.trans h)
        rw [← heq]
        exact ⟨rfl, rfl, rfl⟩

/-- C8 (witness): a delete of the two-key list `bbaa0011,bb000000` on a
variable-length table with key length 4 reaches `ldb_collate` with the
sorted key list. -/
theorem C8_collate_invocation_witness :
    (⟨⟨4, 0, false⟩, ⟨4, 0, true⟩, 10, false,
          [[187, 0, 0, 0], [187, 170, 0, 17]]⟩ : CollateCall).erase = false ∧
      (⟨⟨4, 0, false⟩, ⟨4, 0, true⟩, 10, false,
          [[187, 0, 0, 0], [187, 170, 0, 17]]⟩ : CollateCall).dst.tmp = true ∧
      (⟨⟨4, 0, false⟩, ⟨4, 0, true⟩, 10, false,
          [[187, 0, 0, 0], [187, 170, 0, 17]]⟩ : CollateCall).keys =
        List.insertionSort keyLe (fetch_keys
          [98, 98, 97, 97, 48, 48, 49, 49, 44, 98, 98, 48, 48, 48, 48, 48, 48]
          (⟨4, 0, false⟩ : LdbTable).key_ln) ∧
      List.Sorted keyLe (⟨⟨4, 0, false⟩, ⟨4, 0, true⟩, 10, false,
          [[187, 0, 0, 0], [187, 170, 0, 17]]⟩ : CollateCall).keys ∧
      (⟨⟨4, 0, false⟩, ⟨4, 0, true⟩, 10, false,
          [[187, 0, 0, 0], [187, 170, 0, 17]]⟩ : CollateCall).keys.Perm
        (fetch_keys
          [98, 98, 97, 97, 48, 48, 49, 49, 44, 98, 98, 48, 48, 48, 48, 48, 48]
          (⟨4, 0, false⟩ : LdbTable).key_ln) := by
  exact (C8_collate_invocation ⟨4, 0, false⟩
      [98, 98, 97, 97, 48, 48, 49, 49, 44, 98, 98, 48, 48, 48, 48, 48, 48] 10
      ⟨⟨4, 0, false⟩, ⟨4, 0, true⟩, 10, false,
        [[187, 0, 0, 0], [187, 170, 0, 17]]⟩).1 (by decide)

/-! ### Claim C9: the record header written by insert -/

/-- C9: the code violates the claim for hex inserts.  For the command
`insert into db/t key aabbccdd hex ffffffff` the buffer stored by
`ldb_node_write` is the decoded payload `databin` (whose first bytes are
`ff ff ff ff`), not a buffer starting with the 4-byte header
(total-length 6, payload-length 4) that the code assembled into the
`data` buffer and then discarded. -/
theorem C9_hex_insert_header_bug :
    firstNodeWrite (ldb_command_insert ⟨4, 0, false⟩
        [97, 97, 98, 98, 99, 99, 100, 100]
        [102, 102, 102, 102, 102, 102, 102, 102] InsertType.hexT) =
      some ⟨[170, 187, 204, 221], [255, 255, 255, 255, 0, 0, 0, 0], 8⟩ ∧
      ¬ ([255, 255, 255, 255, 0, 0, 0, 0] : List Nat).take 4 =
          uint16_write ((4 % 65536 + 2) % 65536) ++ uint16_write (4 % 65536) := by
  decide

end LdbProof
